import Mathlib

/-!
Verification of the inverted-index program `text_search_index.py`.

Strings are modelled as lists of characters.  The class `TextSearchIndex`
holds the entry list (`_texts` in the source) and the combination index
(`_index`, a `defaultdict(set)` modelled as a total function from word-set
keys to finite sets of entry ids, defaulting to the empty set).
-/

namespace TextSearch

abbrev Token := List Char

/-- The fixed character list `[' ', '\n', ',', '.', ':', ';']` that the
source strips from both ends of each piece, one character at a time. -/
def stripChars : List Char := [' ', '\n', ',', '.', ':', ';']

/-- Python `word.strip(s)` for a single character `s`: remove all leading
and all trailing occurrences of that one character. -/
def stripChar (c : Char) (w : List Char) : List Char :=
  ((w.dropWhile (· = c)).reverse.dropWhile (· = c)).reverse

/-- The source expression
`reduce(lambda word, s: word.strip(s), [word] + [' ', '\n', ',', '.', ':', ';'])`:
the sequential left fold of single-character strips over the fixed list. -/
def stripSeq (w : List Char) : List Char :=
  stripChars.foldl (fun word s => stripChar s word) w

/-- Modelled from the spec: trimming the fixed character class as a whole,
i.e. removing leading and trailing characters that lie anywhere in
`stripChars`, until no boundary character is in the class.  Used only to
compare the spec's described normalizer with the source's `stripSeq`. -/
def stripClass (w : List Char) : List Char :=
  ((w.dropWhile (· ∈ stripChars)).reverse.dropWhile (· ∈ stripChars)).reverse

/-- Python `text.split(' ')`: split on every occurrence of the literal
space character, preserving empty pieces (and `"".split(' ') == ['']`). -/
def splitOnSpace : List Char → List (List Char)
  | [] => [[]]
  | c :: rest =>
    if c = ' ' then [] :: splitOnSpace rest
    else
      match splitOnSpace rest with
      | [] => [[c]]
      | p :: ps => (c :: p) :: ps

/-- The tokenization line of `add`:
`[reduce(lambda word, s: word.strip(s), [word] + [' ','\n',',','.',':',';']) for word in text.split(' ')]`. -/
def tokenize (text : List Char) : List Token :=
  (splitOnSpace text).map stripSeq

/-- Joining pieces back with a single space between consecutive pieces;
the inverse of `splitOnSpace`, used to state that splitting loses nothing
and splits on the space character only. -/
def joinWithSpace : List (List Char) → List Char
  | [] => []
  | [p] => p
  | p :: q :: ps => p ++ ' ' :: joinWithSpace (q :: ps)

/-- The state of the class `TextSearchIndex`: `texts` is `self._texts`,
`index` is `self._index` (a `defaultdict(set)`, so a missing key reads as
the empty set: we model it as a total function into `Finset ℕ`). -/
structure TextSearchIndex where
  texts : List (List Char)
  index : Finset Token → Finset Nat

/-- Constructor `TextSearchIndex.__init__`: empty entry list, empty index. -/
def TextSearchIndex.empty : TextSearchIndex :=
  { texts := [], index := fun _ => ∅ }

/-- One iteration of the inner loop of `add`:
`self._index[frozenset(words)].add(id)`. -/
def updIndex (idx : Finset Token → Finset Nat) (key : Finset Token) (i : Nat) :
    Finset Token → Finset Nat :=
  fun k => if k = key then insert i (idx k) else idx k

/-- Method `TextSearchIndex.add(text)`: append `text` to the entry list, tokenize
it, and for every size `k` from 1 to the number of tokens insert the new
id `len(self._texts) - 1` under the frozenset of every `k`-combination of
the token list.  The union over all `k` of the `k`-combinations of a list
is exactly its non-empty subsequences, which `List.sublists` enumerates
(filtered to the non-empty ones, matching `xrange(1, len(words) + 1)`). -/
def TextSearchIndex.add (t : TextSearchIndex) (text : List Char) : TextSearchIndex :=
  let texts := t.texts ++ [text]
  let i := texts.length - 1
  let words := tokenize text
  let combos := words.sublists.filter (fun ws => !ws.isEmpty)
  { texts := texts
    index := combos.foldl (fun idx ws => updIndex idx ws.toFinset i) t.index }

/-- Method `TextSearchIndex.find(words)`: `self._index.get(frozenset(words), set())`. -/
def TextSearchIndex.find (t : TextSearchIndex) (words : List Token) : Finset Nat :=
  t.index words.toFinset

/-- Method `TextSearchIndex.entry(index)`: Python list indexing `self._texts[index]`,
which accepts negative indices counting from the end and raises `IndexError`
(modelled as `none`) outside `[-len, len)`. -/
def TextSearchIndex.entry (t : TextSearchIndex) (i : Int) : Option (List Char) :=
  if 0 ≤ i then t.texts[i.toNat]?
  else
    let j : Int := (t.texts.length : Int) + i
    if 0 ≤ j then t.texts[j.toNat]? else none

/-- Ingesting a batch of lines starting from an arbitrary state:
repeated `add` calls. -/
def addAll (t : TextSearchIndex) (texts : List (List Char)) : TextSearchIndex :=
  texts.foldl TextSearchIndex.add t

/-- The ingestion phase of `main`: `map(lambda line: t.add(line), ...)`
starting from a fresh index. -/
def buildIndex (texts : List (List Char)) : TextSearchIndex :=
  addAll TextSearchIndex.empty texts

/-! ### Basic lemmas about the embedding -/

theorem add_texts (t : TextSearchIndex) (x : List Char) :
    (t.add x).texts = t.texts ++ [x] := rfl

theorem addAll_texts (t : TextSearchIndex) (l : List (List Char)) :
    (addAll t l).texts = t.texts ++ l := by
  induction l generalizing t with
  | nil => simp [addAll]
  | cons x xs ih =>
      show (addAll (t.add x) xs).texts = _
      rw [ih, add_texts]
      simp

theorem buildIndex_texts (texts : List (List Char)) :
    (buildIndex texts).texts = texts := by
  simpa using addAll_texts TextSearchIndex.empty texts

/-- Membership in the index function produced by folding the inner-loop
update over a list of combinations. -/
theorem mem_foldl_upd (combos : List (List Token)) (idx : Finset Token → Finset Nat)
    (i : Nat) (S : Finset Token) (j : Nat) :
    j ∈ (combos.foldl (fun idx ws => updIndex idx ws.toFinset i) idx) S ↔
      (j = i ∧ ∃ ws ∈ combos, ws.toFinset = S) ∨ j ∈ idx S := by
  induction combos generalizing idx with
  | nil => simp
  | cons ws rest ih =>
      show j ∈ (rest.foldl _ (updIndex idx ws.toFinset i)) S ↔ _
      rw [ih]
      by_cases hS : S = ws.toFinset
      · subst hS
        rw [show updIndex idx ws.toFinset i ws.toFinset = insert i (idx ws.toFinset) from
          if_pos rfl]
        simp only [Finset.mem_insert, List.mem_cons]
        constructor
        · rintro (⟨rfl, ws', h1, h2⟩ | (rfl | h))
          · exact Or.inl ⟨rfl, ws', Or.inr h1, h2⟩
          · exact Or.inl ⟨rfl, ws, Or.inl rfl, rfl⟩
          · exact Or.inr h
        · rintro (⟨rfl, ws', _, h2⟩ | h)
          · exact Or.inr (Or.inl rfl)
          · exact Or.inr (Or.inr h)
      · simp only [updIndex, if_neg hS, List.mem_cons]
        constructor
        · rintro (⟨rfl, ws', h1, h2⟩ | h)
          · exact Or.inl ⟨rfl, ws', Or.inr h1, h2⟩
          · exact Or.inr h
        · rintro (⟨rfl, ws', h1 | h1, h2⟩ | h)
          · exact absurd h2.symm (by simpa [h1] using hS)
          · exact Or.inl ⟨rfl, ws', h1, h2⟩
          · exact Or.inr h

/-- A finite set `S` arises as the frozenset of some combination generated
from the token list `T` exactly when `S` is a non-empty subset of the
distinct tokens of `T`. -/
theorem exists_combo_iff (T : List Token) (S : Finset Token) :
    (∃ ws ∈ T.sublists.filter (fun ws => !ws.isEmpty), ws.toFinset = S) ↔
      S.Nonempty ∧ ∀ x ∈ S, x ∈ T := by
  constructor
  · rintro ⟨ws, hmem, rfl⟩
    rw [List.mem_filter] at hmem
    obtain ⟨hsub, hne⟩ := hmem
    rw [List.mem_sublists] at hsub
    have hwsne : ws ≠ [] := by simpa [List.isEmpty_iff] using hne
    refine ⟨?_, ?_⟩
    · simpa [Finset.nonempty_iff_ne_empty] using hwsne
    · intro x hx
      rw [List.mem_toFinset] at hx
      exact hsub.mem hx
  · rintro ⟨⟨y, hy⟩, hsub⟩
    refine ⟨T.filter (fun x => decide (x ∈ S)), ?_, ?_⟩
    · rw [List.mem_filter]
      refine ⟨List.mem_sublists.mpr (List.filter_sublist T), ?_⟩
      have hyT : y ∈ T.filter (fun x => decide (x ∈ S)) := by
        rw [List.mem_filter]
        exact ⟨hsub y hy, by simpa using hy⟩
      simpa [List.isEmpty_iff] using List.ne_nil_of_mem hyT
    · ext z
      simp only [List.mem_toFinset, List.mem_filter, decide_eq_true_eq]
      exact ⟨fun h => h.2, fun h => ⟨hsub z h, h⟩⟩

/-- Characterization of the index after one `add`: a new id
`t.texts.length` appears under every non-empty subset of the new entry's
distinct tokens, and everything previously present is preserved. -/
theorem mem_add_index (t : TextSearchIndex) (text : List Char) (S : Finset Token) (j : Nat) :
    j ∈ (t.add text).index S ↔
      (j = t.texts.length ∧ S.Nonempty ∧ ∀ x ∈ S, x ∈ tokenize text) ∨ j ∈ t.index S := by
  show j ∈ (((tokenize text).sublists.filter (fun ws => !ws.isEmpty)).foldl
      (fun idx ws => updIndex idx ws.toFinset ((t.texts ++ [text]).length - 1)) t.index) S ↔ _
  rw [mem_foldl_upd]
  have hlen : (t.texts ++ [text]).length - 1 = t.texts.length := by simp
  rw [hlen, exists_combo_iff]

theorem add_index_mono (t : TextSearchIndex) (text : List Char) (S : Finset Token) (j : Nat)
    (h : j ∈ t.index S) : j ∈ (t.add text).index S :=
  (mem_add_index t text S j).mpr (Or.inr h)

theorem addAll_index_mono (t : TextSearchIndex) (l : List (List Char)) (S : Finset Token)
    (j : Nat) (h : j ∈ t.index S) : j ∈ (addAll t l).index S := by
  induction l generalizing t with
  | nil => exact h
  | cons x xs ih => exact ih (t.add x) (add_index_mono t x S j h)

/-- Full characterization of the index of a batch-built state: `j` is
stored under key `S` exactly when `S` is non-empty, `j` is a valid entry
id, and `S` is a subset of the distinct tokens of entry `j`. -/
theorem mem_buildIndex (texts : List (List Char)) (S : Finset Token) (j : Nat) :
    j ∈ (buildIndex texts).index S ↔
      S.Nonempty ∧ j < texts.length ∧ ∀ x ∈ S, x ∈ tokenize (texts.getD j []) := by
  induction texts using List.reverseRecOn with
  | nil =>
      show j ∈ (∅ : Finset Nat) ↔ _
      simp
  | append_singleton ts x ih =>
      have hfold : buildIndex (ts ++ [x]) = (buildIndex ts).add x := by
        simp [buildIndex, addAll, List.foldl_append]
      rw [hfold, mem_add_index, ih, buildIndex_texts]
      constructor
      · rintro (⟨rfl, hne, hsub⟩ | ⟨hne, hlt, hsub⟩)
        · refine ⟨hne, by simp, ?_⟩
          have : (ts ++ [x]).getD ts.length [] = x := by
            simp [List.getD_eq_getElem?_getD]
          rwa [this]
        · refine ⟨hne, by simp [Nat.lt_succ_of_lt hlt], ?_⟩
          have : (ts ++ [x]).getD j [] = ts.getD j [] := by
            simp [List.getD_eq_getElem?_getD, List.getElem?_append_left hlt]
          rwa [this]
      · rintro ⟨hne, hlt, hsub⟩
        rcases Nat.lt_or_ge j ts.length with hj | hj
        · refine Or.inr ⟨hne, hj, ?_⟩
          have : (ts ++ [x]).getD j [] = ts.getD j [] := by
            simp [List.getD_eq_getElem?_getD, List.getElem?_append_left hj]
          rwa [this] at hsub
        · have hj' : j = ts.length := by
            have : j < ts.length + 1 := by simpa using hlt
            omega
          subst hj'
          refine Or.inl ⟨rfl, hne, ?_⟩
          have : (ts ++ [x]).getD ts.length [] = x := by
            simp [List.getD_eq_getElem?_getD]
          rwa [this] at hsub

/-! ### Claims -/

/-- C1: Subset closure — after any sequence of `add` calls, for every added
entry with token list `T` and every non-empty subset `S` of the distinct
tokens of `T`, the index maps `S` to a set containing the entry's id; this
holds when the ingesting `add` returns and is preserved by every later
`add`. -/
theorem C1_subset_closure (pre : List (List Char)) (text : List Char)
    (post : List (List Char)) (S : Finset Token)
    (hne : S.Nonempty) (hsub : ∀ x ∈ S, x ∈ tokenize text) :
    pre.length ∈ (addAll ((addAll TextSearchIndex.empty pre).add text) post).index S := by
  apply addAll_index_mono
  apply (mem_add_index _ text S _).mpr
  refine Or.inl ⟨?_, hne, hsub⟩
  rw [addAll_texts]
  simp [TextSearchIndex.empty]

theorem C1_subset_closure_witness :
    ({(['a'] : Token)} : Finset Token).Nonempty ∧
      (0 : Nat) ∈ (addAll ((addAll TextSearchIndex.empty []).add ['a']) [['b']]).index
        {(['a'] : Token)} :=
  ⟨by decide, C1_subset_closure [] ['a'] [['b']] {['a']} (by decide) (by decide)⟩

/-- C2 counterexample: the claim fails for the empty word set.  After
adding the entry `"a"`, every token of the empty set `S = ∅` trivially
appears among entry 0's distinct tokens, yet `find(∅)` does not contain
id 0 (the empty key is never materialized, since combination sizes start
at 1). -/
theorem C2_cex :
    (∀ x ∈ ([] : List Token), x ∈ tokenize ['a']) ∧ 0 < [['a']].length ∧
      (0 : Nat) ∉ (buildIndex [['a']]).find ([] : List Token) :=
  ⟨by simp, by decide, by decide⟩

/-- C2 (amended): for every NON-EMPTY word set `S`, `find S` returns
exactly the ids of entries whose distinct tokens include `S` as a
subset — no such id is missing and no other id is returned. -/
theorem C2_lookup_exactness (texts : List (List Char)) (S : List Token)
    (hS : S ≠ []) (j : Nat) :
    j ∈ (buildIndex texts).find S ↔
      j < texts.length ∧ ∀ x ∈ S, x ∈ tokenize (texts.getD j []) := by
  show j ∈ (buildIndex texts).index S.toFinset ↔ _
  rw [mem_buildIndex]
  constructor
  · rintro ⟨-, hlt, hsub⟩
    exact ⟨hlt, fun x hx => hsub x (List.mem_toFinset.mpr hx)⟩
  · rintro ⟨hlt, hsub⟩
    refine ⟨?_, hlt, fun x hx => hsub x (List.mem_toFinset.mp hx)⟩
    obtain ⟨y, hy⟩ := List.exists_mem_of_ne_nil S hS
    exact ⟨y, List.mem_toFinset.mpr hy⟩

theorem C2_lookup_exactness_witness :
    ([(['a'] : Token)] ≠ ([] : List Token)) ∧
      ((0 : Nat) ∈ (buildIndex [['a']]).find [(['a'] : Token)] ↔
        0 < [['a']].length ∧ ∀ x ∈ [(['a'] : Token)], x ∈ tokenize ([['a']].getD 0 [])) :=
  ⟨by decide, C2_lookup_exactness [['a']] [['a']] (by decide) 0⟩

/-- C3: Negation — for every positive word set `P` and negative word `w`,
`find P \ find [w]` contains no id whose entry's distinct tokens include
`w`, and keeps every id of `find P` whose entry's distinct tokens do not
include `w`. -/
theorem C3_negation (texts : List (List Char)) (P : List Token) (w : Token) (j : Nat) :
    (j ∈ (buildIndex texts).find P \ (buildIndex texts).find [w] →
      j < texts.length ∧ w ∉ tokenize (texts.getD j [])) ∧
    (j ∈ (buildIndex texts).find P → w ∉ tokenize (texts.getD j []) →
      j ∈ (buildIndex texts).find P \ (buildIndex texts).find [w]) := by
  constructor
  · intro h
    rw [Finset.mem_sdiff] at h
    obtain ⟨hP, hw⟩ := h
    have hch := (mem_buildIndex texts P.toFinset j).mp hP
    refine ⟨hch.2.1, fun hwj => hw ?_⟩
    show j ∈ (buildIndex texts).index [w].toFinset
    rw [mem_buildIndex]
    refine ⟨by simp, hch.2.1, ?_⟩
    intro x hx
    rw [List.mem_toFinset, List.mem_singleton] at hx
    rwa [hx]
  · intro hP hw
    rw [Finset.mem_sdiff]
    refine ⟨hP, fun hwj => hw ?_⟩
    have hch := (mem_buildIndex texts [w].toFinset j).mp hwj
    exact hch.2.2 w (by simp)

theorem C3_negation_witness :
    (0 < [['a'], ['b']].length ∧ (['b'] : Token) ∉ tokenize ([['a'], ['b']].getD 0 [])) ∧
      (0 : Nat) ∈ (buildIndex [['a'], ['b']]).find [(['a'] : Token)] \
        (buildIndex [['a'], ['b']]).find [(['b'] : Token)] :=
  ⟨(C3_negation [['a'], ['b']] [['a']] ['b'] 0).1 (by decide),
   (C3_negation [['a'], ['b']] [['a']] ['b'] 0).2 (by decide) (by decide)⟩

/-- Stripping a single character removes only copies of that character,
and only from the two ends. -/
theorem stripChar_decomp (c : Char) (w : List Char) :
    ∃ pre suf, w = pre ++ stripChar c w ++ suf ∧
      (∀ x ∈ pre, x = c) ∧ (∀ x ∈ suf, x = c) := by
  refine ⟨w.takeWhile (· = c),
    ((w.dropWhile (· = c)).reverse.takeWhile (· = c)).reverse, ?_, ?_, ?_⟩
  · have h1 : w = w.takeWhile (· = c) ++ w.dropWhile (· = c) :=
      (List.takeWhile_append_dropWhile _ w).symm
    have key := congrArg List.reverse
      (List.takeWhile_append_dropWhile (fun x => decide (x = c)) (w.dropWhile (· = c)).reverse)
    rw [List.reverse_append, List.reverse_reverse] at key
    have h2 : w.dropWhile (· = c) =
        stripChar c w ++ ((w.dropWhile (· = c)).reverse.takeWhile (· = c)).reverse :=
      key.symm
    exact (h1.trans (congrArg (fun l => w.takeWhile (· = c) ++ l) h2)).trans
      (List.append_assoc _ _ _).symm
  · intro x hx
    simpa using List.mem_takeWhile_imp hx
  · intro x hx
    rw [List.mem_reverse] at hx
    simpa using List.mem_takeWhile_imp hx

/-- Folding single-character strips over a character list removes only
characters drawn from that list, and only from the two ends. -/
theorem foldl_strip_decomp (cs : List Char) (w : List Char) :
    ∃ pre suf, w = pre ++ cs.foldl (fun word s => stripChar s word) w ++ suf ∧
      (∀ x ∈ pre, x ∈ cs) ∧ (∀ x ∈ suf, x ∈ cs) := by
  induction cs generalizing w with
  | nil => exact ⟨[], [], by simp, by simp, by simp⟩
  | cons c cs ih =>
      obtain ⟨p1, s1, hw, hp1, hs1⟩ := stripChar_decomp c w
      obtain ⟨p2, s2, hrec, hp2, hs2⟩ := ih (stripChar c w)
      refine ⟨p1 ++ p2, s2 ++ s1, ?_, ?_, ?_⟩
      · show w = (p1 ++ p2) ++ cs.foldl (fun word s => stripChar s word) (stripChar c w) ++
          (s2 ++ s1)
        set F := cs.foldl (fun word s => stripChar s word) (stripChar c w) with hF
        rw [hw]
        nth_rewrite 1 [hrec]
        simp [List.append_assoc]
      · intro x hx
        rcases List.mem_append.mp hx with h | h
        · rw [hp1 x h]; exact List.mem_cons_self c cs
        · exact List.mem_cons_of_mem c (hp2 x h)
      · intro x hx
        rcases List.mem_append.mp hx with h | h
        · exact List.mem_cons_of_mem c (hs2 x h)
        · exact List.mem_cons.mpr (Or.inl (hs1 x h))

/-- C4 counterexample: on the piece `"a,."` the source's sequential strip
(`stripSeq`, stripping ',' before '.') leaves `"a,"`, while trimming the
fixed character class as a whole (`stripClass`) would give `"a"`; the two
normalizations differ, and the piece does arise from tokenizing the
entry `"a,."`. -/
theorem C4_strip_cex :
    stripSeq ['a', ',', '.'] = ['a', ','] ∧ stripClass ['a', ',', '.'] = ['a'] ∧
      stripSeq ['a', ',', '.'] ≠ stripClass ['a', ',', '.'] ∧
      tokenize ['a', ',', '.'] = [['a', ',']] := by decide

/-- C4 (amended): the normalizer strips the characters of
`{' ', '\n', ',', '.', ':', ';'}` sequentially, one character at a time in
that fixed order, each step removing leading and trailing occurrences of
that single character; consequently every removed character is in the
class and only the two ends are trimmed, but the result is not always the
same as trimming the class as a whole. -/
theorem C4_strip_amended (w : List Char) :
    ∃ pre suf, w = pre ++ stripSeq w ++ suf ∧
      (∀ x ∈ pre, x ∈ stripChars) ∧ (∀ x ∈ suf, x ∈ stripChars) :=
  foldl_strip_decomp stripChars w

theorem C4_strip_amended_witness :
    ∃ pre suf, (['.', 'a'] : List Char) = pre ++ stripSeq ['.', 'a'] ++ suf ∧
      (∀ x ∈ pre, x ∈ stripChars) ∧ (∀ x ∈ suf, x ∈ stripChars) :=
  C4_strip_amended ['.', 'a']

/-- C5 counterexample: after adding the single entry `"a"`, the id `-1`
was never produced by `add` (all produced ids are non-negative), yet
`entry(-1)` silently returns the stored text `"a"` instead of failing:
Python list indexing accepts negative indices. -/
theorem C5_entry_cex :
    TextSearchIndex.entry (TextSearchIndex.empty.add ['a']) (-1) = some ['a'] ∧
      ¬ (0 ≤ (-1 : Int)) := by decide

/-- C5 (amended): `entry i` fails with an out-of-range error exactly when
`i` is at or beyond the number of stored entries, or strictly below minus
that number; for `-n ≤ i < 0` Python's negative indexing silently returns
the entry at position `n + i`. -/
theorem C5_entry_out_of_range (t : TextSearchIndex) (i : Int) :
    t.entry i = none ↔
      (t.texts.length : Int) ≤ i ∨ i < -(t.texts.length : Int) := by
  unfold TextSearchIndex.entry
  by_cases h : 0 ≤ i
  · rw [if_pos h, List.getElem?_eq_none_iff]
    omega
  · rw [if_neg h]
    by_cases h2 : 0 ≤ (t.texts.length : Int) + i
    · rw [if_pos h2, List.getElem?_eq_none_iff]
      omega
    · rw [if_neg h2]
      simp only [true_iff]
      omega

theorem C5_entry_out_of_range_witness :
    TextSearchIndex.entry (buildIndex [['a']]) 5 = none ↔
      ((buildIndex [['a']]).texts.length : Int) ≤ 5 ∨
        (5 : Int) < -((buildIndex [['a']]).texts.length : Int) :=
  C5_entry_out_of_range (buildIndex [['a']]) 5

/-- C6: Unknown key — if no entry's distinct tokens make the queried word
set a materialized key, `find` returns the empty set (and does not fail);
in particular every query against a freshly built index is empty. -/
theorem C6_unknown_key_empty (texts : List (List Char)) (S : List Token)
    (h : ∀ j : Fin texts.length, ¬ (S ≠ [] ∧ ∀ x ∈ S, x ∈ tokenize (texts.get j))) :
    (buildIndex texts).find S = ∅ ∧ (buildIndex []).find S = ∅ := by
  have fresh : (buildIndex []).find S = ∅ := by
    show (buildIndex []).index S.toFinset = ∅
    rw [Finset.eq_empty_iff_forall_not_mem]
    intro j hj
    have hch := (mem_buildIndex [] S.toFinset j).mp hj
    simp at hch
  refine ⟨?_, fresh⟩
  rw [Finset.eq_empty_iff_forall_not_mem]
  intro j hj
  have hch := (mem_buildIndex texts S.toFinset j).mp hj
  obtain ⟨hne, hlt, hsub⟩ := hch
  apply h ⟨j, hlt⟩
  constructor
  · intro hnil
    subst hnil
    simp at hne
  · intro x hx
    have hx' := hsub x (List.mem_toFinset.mpr hx)
    have hg : texts.getD j [] = texts.get ⟨j, hlt⟩ := by
      rw [List.getD_eq_getElem texts [] hlt]
      rfl
    rwa [hg] at hx'

theorem C6_witness :
    (∀ j : Fin ([['a']] : List (List Char)).length,
      ¬ ([(['b'] : Token)] ≠ [] ∧ ∀ x ∈ [(['b'] : Token)], x ∈ tokenize ([['a']].get j))) ∧
      (buildIndex [['a']]).find [(['b'] : Token)] = ∅ ∧
      (buildIndex []).find [(['b'] : Token)] = ∅ :=
  ⟨by decide, C6_unknown_key_empty [['a']] [['b']] (by decide)⟩

/-- C7: Empty-string ingestion — `add ""` always succeeds, tokenizes to
exactly one empty token, its only degenerate combination key is the
singleton of the empty token, under which the new id is inserted; `find`
is unchanged on every other key. -/
theorem C7_empty_string (t : TextSearchIndex) (S : List Token)
    (hS : S.toFinset ≠ {([] : Token)}) :
    tokenize [] = [([] : Token)] ∧
      (t.add []).index {([] : Token)} = insert t.texts.length (t.index {([] : Token)}) ∧
      (t.add []).find S = t.find S := by
  refine ⟨rfl, ?_, ?_⟩
  · ext j
    rw [mem_add_index, Finset.mem_insert]
    constructor
    · rintro (⟨rfl, -, -⟩ | h)
      · exact Or.inl rfl
      · exact Or.inr h
    · rintro (rfl | h)
      · exact Or.inl ⟨rfl, ⟨[], Finset.mem_singleton_self []⟩, by decide⟩
      · exact Or.inr h
  · show (t.add []).index S.toFinset = t.index S.toFinset
    ext j
    rw [mem_add_index]
    constructor
    · rintro (⟨rfl, hne, hsub⟩ | h)
      · exfalso
        apply hS
        rw [Finset.eq_singleton_iff_unique_mem]
        have hall : ∀ x ∈ S.toFinset, x = ([] : Token) := by
          intro x hx
          have := hsub x hx
          simpa [tokenize, splitOnSpace, stripSeq, stripChar, stripChars] using this
        obtain ⟨y, hy⟩ := hne
        exact ⟨(hall y hy) ▸ hy, hall⟩
      · exact h
    · exact fun h => Or.inr h

theorem C7_witness :
    ([(['a'] : Token)].toFinset ≠ {([] : Token)}) ∧
      (tokenize [] = [([] : Token)] ∧
        (TextSearchIndex.empty.add []).index {([] : Token)} =
          insert TextSearchIndex.empty.texts.length
            (TextSearchIndex.empty.index {([] : Token)}) ∧
        (TextSearchIndex.empty.add []).find [(['a'] : Token)] =
          TextSearchIndex.empty.find [(['a'] : Token)]) :=
  ⟨by decide, C7_empty_string TextSearchIndex.empty [['a']] (by decide)⟩

/-- Splitting on the space character yields one more piece than the number
of spaces: every space separates, and nothing (in particular no empty
piece) is dropped. -/
theorem splitOnSpace_length (text : List Char) :
    (splitOnSpace text).length = text.count ' ' + 1 := by
  induction text with
  | nil => rfl
  | cons c rest ih =>
      rw [splitOnSpace]
      by_cases h : c = ' '
      · subst h
        simp [List.count_cons, ih]
      · rw [if_neg h]
        cases hsp : splitOnSpace rest with
        | nil => rw [hsp] at ih; simp at ih
        | cons q qs =>
            rw [hsp] at ih
            simp only [List.length_cons] at ih ⊢
            have hc : (c :: rest).count ' ' = rest.count ' ' := by
              simp [List.count_cons, h]
            rw [hc]
            omega

theorem splitOnSpace_ne_nil (text : List Char) : splitOnSpace text ≠ [] := by
  intro h
  have hl := splitOnSpace_length text
  rw [h] at hl
  simp at hl

/-- No piece produced by splitting contains a space. -/
theorem splitOnSpace_no_space (text : List Char) :
    ∀ p ∈ splitOnSpace text, ' ' ∉ p := by
  induction text with
  | nil =>
      intro p hp
      simp only [splitOnSpace, List.mem_singleton] at hp
      subst hp
      simp
  | cons c rest ih =>
      intro p hp
      rw [splitOnSpace] at hp
      by_cases h : c = ' '
      · rw [if_pos h] at hp
        rcases List.mem_cons.mp hp with rfl | hp'
        · simp
        · exact ih p hp'
      · rw [if_neg h] at hp
        cases hsp : splitOnSpace rest with
        | nil =>
            rw [hsp] at hp
            simp only [List.mem_singleton] at hp
            subst hp
            intro hmem
            rcases List.mem_cons.mp hmem with hc | hq
            · exact h hc.symm
            · simp at hq
        | cons q qs =>
            rw [hsp] at hp
            rcases List.mem_cons.mp hp with rfl | hp'
            · intro hmem
              rcases List.mem_cons.mp hmem with hc | hq
              · exact h hc.symm
              · exact ih q (by rw [hsp]; exact List.mem_cons_self q qs) hq
            · exact ih p (by rw [hsp]; exact List.mem_cons_of_mem q hp')

/-- Joining the pieces back with single spaces restores the input: the
split removes exactly the separating spaces and nothing else, so the
space character is the only separator. -/
theorem joinWithSpace_splitOnSpace (text : List Char) :
    joinWithSpace (splitOnSpace text) = text := by
  induction text with
  | nil => rfl
  | cons c rest ih =>
      rw [splitOnSpace]
      by_cases h : c = ' '
      · rw [if_pos h]
        cases hsp : splitOnSpace rest with
        | nil => exact absurd hsp (splitOnSpace_ne_nil rest)
        | cons q qs =>
            rw [hsp] at ih
            rw [joinWithSpace, ih, h]
            rfl
      · rw [if_neg h]
        cases hsp : splitOnSpace rest with
        | nil => exact absurd hsp (splitOnSpace_ne_nil rest)
        | cons q qs =>
            rw [hsp] at ih
            show joinWithSpace ((c :: q) :: qs) = c :: rest
            cases qs with
            | nil =>
                rw [joinWithSpace]
                rw [joinWithSpace] at ih
                rw [ih]
            | cons q2 qs2 =>
                rw [joinWithSpace]
                rw [joinWithSpace] at ih
                rw [List.cons_append, ih]

/-- C8: Tokenization shape — normalization maps the strip over the pieces
of the space-split (so the token list has exactly the split's length, with
empty tokens preserved), the split yields one piece per space plus one,
its pieces contain no space, and joining the pieces with single spaces
restores the input, so the literal space character is the only separator
(tabs and other whitespace are kept inside pieces). -/
theorem C8_tokenization_shape (text : List Char) :
    tokenize text = (splitOnSpace text).map stripSeq ∧
      (tokenize text).length = (splitOnSpace text).length ∧
      (splitOnSpace text).length = text.count ' ' + 1 ∧
      (∀ p ∈ splitOnSpace text, ' ' ∉ p) ∧
      joinWithSpace (splitOnSpace text) = text :=
  ⟨rfl, by simp [tokenize], splitOnSpace_length text, splitOnSpace_no_space text,
    joinWithSpace_splitOnSpace text⟩

theorem C8_witness :
    (['a'] ∈ splitOnSpace ['a', ' ', 'b']) ∧ ' ' ∉ (['a'] : List Char) :=
  ⟨by decide, (C8_tokenization_shape ['a', ' ', 'b']).2.2.2.1 ['a'] (by decide)⟩

/-- C9: Verbatim append round-trip — `add text` appends `text` verbatim,
the ingesting loop inserts only the new id `n` (the previous number of
entries) into the index, `entry n` afterwards returns `text` exactly, and
`entry i` for every earlier position `i < n` is unchanged: entries are
append-only. -/
theorem C9_append_round_trip (t : TextSearchIndex) (text : List Char) :
    (t.add text).texts = t.texts ++ [text] ∧
      (t.add text).entry (t.texts.length : Int) = some text ∧
      (∀ S j, j ∈ (t.add text).index S → j ∈ t.index S ∨ j = t.texts.length) ∧
      (∀ i : Nat, i < t.texts.length →
        (t.add text).entry (i : Int) = t.entry (i : Int)) := by
  refine ⟨rfl, ?_, ?_, ?_⟩
  · show TextSearchIndex.entry _ _ = _
    unfold TextSearchIndex.entry
    rw [if_pos (Int.natCast_nonneg t.texts.length), add_texts]
    rw [show ((t.texts.length : Int)).toNat = t.texts.length from Int.toNat_natCast _]
    exact List.getElem?_concat_length t.texts text
  · intro S j hj
    rcases (mem_add_index t text S j).mp hj with ⟨rfl, -, -⟩ | h
    · exact Or.inr rfl
    · exact Or.inl h
  · intro i hi
    unfold TextSearchIndex.entry
    rw [if_pos (Int.natCast_nonneg i), if_pos (Int.natCast_nonneg i)]
    rw [show ((i : Int)).toNat = i from Int.toNat_natCast _]
    rw [add_texts, List.getElem?_append_left hi]

theorem C9_witness :
    (0 < (buildIndex [['a']]).texts.length) ∧
      TextSearchIndex.entry ((buildIndex [['a']]).add ['b']) ((0 : Nat) : Int) =
        TextSearchIndex.entry (buildIndex [['a']]) ((0 : Nat) : Int) :=
  ⟨by decide, (C9_append_round_trip (buildIndex [['a']]) ['b']).2.2.2 0 (by decide)⟩

/-- C10: Stored ids are always valid — in every state built by a sequence
of `add` calls, every id stored under any key is a valid zero-based entry
position, so every id returned by `find` can be passed to `entry` without
hitting the out-of-range condition. -/
theorem C10_ids_valid (texts : List (List Char)) (S : Finset Token)
    (ws : List Token) (j : Nat) :
    (j ∈ (buildIndex texts).index S →
      j < texts.length ∧
        (buildIndex texts).entry (j : Int) = some (texts.getD j [])) ∧
    (j ∈ (buildIndex texts).find ws → (buildIndex texts).entry (j : Int) ≠ none) := by
  have key : ∀ K : Finset Token, j ∈ (buildIndex texts).index K →
      j < texts.length ∧
        (buildIndex texts).entry (j : Int) = some (texts.getD j []) := by
    intro K hj
    obtain ⟨-, hlt, -⟩ := (mem_buildIndex texts K j).mp hj
    refine ⟨hlt, ?_⟩
    unfold TextSearchIndex.entry
    rw [if_pos (Int.natCast_nonneg j)]
    rw [show ((j : Int)).toNat = j from Int.toNat_natCast _]
    rw [buildIndex_texts, List.getElem?_eq_getElem hlt,
      List.getD_eq_getElem texts [] hlt]
  refine ⟨key S, fun h => ?_⟩
  rw [(key ws.toFinset h).2]
  simp

theorem C10_witness :
    ((0 : Nat) ∈ (buildIndex [['a']]).find [(['a'] : Token)]) ∧
      TextSearchIndex.entry (buildIndex [['a']]) ((0 : Nat) : Int) ≠ none :=
  ⟨by decide, (C10_ids_valid [['a']] {(['a'] : Token)} [['a']] 0).2 (by decide)⟩

end TextSearch
